import Mathlib

/-!
# rshell — shallow embedding and verification of spec claims

This development embeds the parsing, dispatch, pipeline, job-control and
line-editing logic of the `rshell` interactive shell (a Rust program) as
executable Lean definitions, and settles the spec claims against them.

Strings are modelled as `List Char`.  The Rust sources index strings both
by bytes and by characters; on the ASCII inputs used by every concrete
evaluation below these coincide, and the embedding uses character indices
throughout.  External effects (process spawning, the filesystem, `PATH`
scanning) are modelled as explicit oracle parameters, so that each
function of the source becomes a pure Lean function of its inputs and its
oracles.
-/

namespace RShell

/-- Rust `char::is_whitespace` restricted to the ASCII whitespace
characters (all inputs considered in this development are ASCII). -/
def isWs (c : Char) : Bool :=
  c = ' ' || c = '\t' || c = '\n' || c = '\r' || c = '\x0b' || c = '\x0c'

/-- Rust `str::trim_start`: drop leading whitespace. -/
def trimStartR (l : List Char) : List Char := l.dropWhile isWs

/-- Rust `str::trim_end`: drop trailing whitespace. -/
def trimEndR (l : List Char) : List Char := (l.reverse.dropWhile isWs).reverse

/-- Rust `str::trim`: drop leading and trailing whitespace. -/
def trimR (l : List Char) : List Char := trimEndR (trimStartR l)

/-- Rust `str::split('|')`: split at every pipe character; empty pieces
are kept (`"a||b"` gives three pieces, the middle one empty). -/
def splitPipe : List Char → List (List Char)
  | [] => [[]]
  | c :: rest =>
    let r := splitPipe rest
    if c = '|' then [] :: r
    else match r with
      | [] => [[c]]
      | p :: ps => (c :: p) :: ps

/-- Accumulator loop for `str::split_whitespace`: build the current word
until whitespace, emitting non-empty words. -/
def wordsGo : List Char → List Char → List (List Char)
  | [], cur => if cur.isEmpty then [] else [cur]
  | c :: rest, cur =>
    if isWs c then
      if cur.isEmpty then wordsGo rest [] else cur :: wordsGo rest []
    else wordsGo rest (cur ++ [c])

/-- Rust `str::split_whitespace`: whitespace-separated words, empty words
discarded. -/
def wordsR (l : List Char) : List (List Char) := wordsGo l []

/-- Number of consecutive occurrences of `c` at the end of `l`
(the backslash-counting loop in `Shell::read_input_with_continuation`). -/
def countTrailing (c : Char) (l : List Char) : Nat :=
  (l.reverse.takeWhile (fun d => d = c)).length

/-- The C-style escape table of `Command::parse_args_with_state`
(src/command.rs): the character produced for an escaped character. -/
def escMap (c : Char) : Char :=
  if c = 'n' then '\n'
  else if c = 't' then '\t'
  else if c = 'r' then '\r'
  else c

/-- The character loop of `Command::parse_args_with_state` (src/command.rs):
accumulator state is (finished args, current arg, in_quotes, quote_char).
A backslash sets `escape_next` when inside quotes or when more input
follows; the escaped character is mapped through the escape table.  The
returned flag is the final `in_quotes` (unclosed-quote detection). -/
def parseArgsGo : List Char → List (List Char) → List Char → Bool → Char →
    List (List Char) × Bool
  | [], args, cur, inq, _ =>
    ((if cur.isEmpty then args else args ++ [cur]), inq)
  | c :: rest, args, cur, inq, qc =>
    if c = '\\' && (inq || !rest.isEmpty) then
      match rest with
      | [] => ((if cur.isEmpty then args else args ++ [cur]), inq)
      | d :: rest' => parseArgsGo rest' args (cur ++ [escMap d]) inq qc
    else if (c = '"' || c = '\'') && !inq then
      parseArgsGo rest args cur true c
    else if (c = '"' || c = '\'') && inq && c = qc then
      parseArgsGo rest args cur false ' '
    else if c = '\n' && inq then
      parseArgsGo rest args (cur ++ [c]) inq qc
    else if c = ' ' && !inq then
      parseArgsGo rest (if cur.isEmpty then args else args ++ [cur]) [] inq qc
    else
      parseArgsGo rest args (cur ++ [c]) inq qc

/-- `Command::parse_args_with_state` (src/command.rs): split into arguments
with quote and escape handling; also return whether quotes are left open. -/
def parseArgsWithState (input : List Char) : List (List Char) × Bool :=
  parseArgsGo input [] [] false ' '

/-- `Command::parse_args` (src/command.rs). -/
def parseArgs (input : List Char) : List (List Char) :=
  (parseArgsWithState input).1

/-- `Command::needs_line_continuation` (src/command.rs): quotes left open. -/
def needsLineContinuation (input : List Char) : Bool :=
  (parseArgsWithState input).2

/-- Rust `u32::from_str` as used by `s.parse::<u32>()` in `Command::parse`
(src/command.rs): an optional leading `+`, then one or more decimal digits,
value below `2^32`. -/
def parseU32 (l : List Char) : Option Nat :=
  let digits := match l with
    | '+' :: rest => rest
    | _ => l
  if digits.isEmpty || !digits.all Char.isDigit then none
  else
    let v := digits.foldl (fun acc c => acc * 10 + (c.toNat - '0'.toNat)) 0
    if v < 2 ^ 32 then some v else none

/-- The loop of `Command::expand_subshells` (src/command.rs).  `exec` is the
oracle standing for `Command::execute_subshell` (it spawns a process and
captures its stdout, an external effect).  State: parenthesis depth (a Rust
`i32`), the collected subshell text, and the output built so far. -/
def expandSubshellsGo (exec : List Char → Except String (List Char)) :
    List Char → Int → List Char → List Char → Except String (List Char)
  | [], depth, _, res =>
    if depth > 0 then .error "Unmatched opening parenthesis" else .ok res
  | c :: rest, depth, sub, res =>
    if c = '(' then
      expandSubshellsGo exec rest (depth + 1)
        (if depth + 1 > 1 then sub ++ [c] else sub) res
    else if c = ')' then
      if depth - 1 = 0 then
        match exec sub with
        | .error e => .error e
        | .ok out => expandSubshellsGo exec rest (depth - 1) [] (res ++ out)
      else if depth - 1 > 0 then
        expandSubshellsGo exec rest (depth - 1) (sub ++ [c]) res
      else .error "Unmatched closing parenthesis"
    else
      if depth > 0 then expandSubshellsGo exec rest depth (sub ++ [c]) res
      else expandSubshellsGo exec rest depth sub (res ++ [c])

/-- `Command::expand_subshells` (src/command.rs). -/
def expandSubshells (exec : List Char → Except String (List Char))
    (input : List Char) : Except String (List Char) :=
  expandSubshellsGo exec input 0 [] []

/-- The `Command` enum of src/command.rs. -/
inductive CommandR where
  | cd (path : Option (List Char))
  | pwd
  | echo (args : List (List Char))
  | exit
  | help
  | ls (path : Option (List Char))
  | cat (file : List Char)
  | mkdir (dir : List Char)
  | rm (file : List Char)
  | touch (file : List Char)
  | clear
  | history
  | jobs
  | fg (jobId : Nat)
  | bg (jobId : Nat)
  | external (program : List Char) (args : List (List Char)) (background : Bool)
  deriving Repr, DecidableEq

/-- The first-word dispatch table at the end of `Command::parse`
(src/command.rs), applied to the split words. -/
def dispatchParts (parts : List (List Char)) (background : Bool) :
    Option CommandR :=
  match parts with
  | [] => none
  | cmd :: args =>
    if cmd = "cd".toList then some (.cd args.head?)
    else if cmd = "pwd".toList then some .pwd
    else if cmd = "echo".toList then some (.echo args)
    else if cmd = "exit".toList then some .exit
    else if cmd = "help".toList then some .help
    else if cmd = "ls".toList then some (.ls args.head?)
    else if cmd = "cat".toList then
      match args.head? with
      | none => none
      | some f => some (.cat f)
    else if cmd = "mkdir".toList then
      match args.head? with
      | none => none
      | some d => some (.mkdir d)
    else if cmd = "rm".toList then
      match args.head? with
      | none => none
      | some f => some (.rm f)
    else if cmd = "touch".toList then
      match args.head? with
      | none => none
      | some f => some (.touch f)
    else if cmd = "clear".toList then some .clear
    else if cmd = "history".toList then some .history
    else if cmd = "jobs".toList then some .jobs
    else if cmd = "fg".toList then
      some (.fg ((args.head?.bind parseU32).getD 1))
    else if cmd = "bg".toList then
      some (.bg ((args.head?.bind parseU32).getD 1))
    else some (.external cmd args background)

/-- `Command::parse` (src/command.rs): trim, expand subshells, strip a
trailing `&` as the background flag, split into words, reject empty and
degenerate inputs, then dispatch on the first word. -/
def parseCommand (exec : List Char → Except String (List Char))
    (input : List Char) : Option CommandR :=
  let input := trimR input
  if input.isEmpty then none
  else
    match expandSubshells exec input with
    | .error _ => none
    | .ok expanded =>
      let background := expanded.getLast? = some '&'
      let input2 := if background then trimR expanded.dropLast else expanded
      let parts := parseArgs input2
      if parts.isEmpty then none
      else if parts.length = 1 && (parts.head! = ['\\'] || parts.head!.isEmpty)
        then none
      else dispatchParts parts background

/-- `parse_pipeline` (src/pipes.rs): split the input at every `|`, then
trim each piece and split it on whitespace. -/
def parsePipelineR (input : List Char) : List (List (List Char)) :=
  (splitPipe input).map (fun cmd => wordsR (trimR cmd))

/-- What one loop iteration of `Shell::run` (src/shell.rs) does with a
submitted line: skip it, hand it to the pipeline executor, or parse it as
a single command. -/
inductive Dispatch where
  | empty
  | pipeline (background : Bool) (stages : List (List (List Char)))
  | single (background : Bool) (cmd : Option CommandR)
  deriving Repr, DecidableEq

/-- The background-flag detection of `Shell::run` (src/shell.rs): a
trailing `&` is stripped and the rest re-trimmed. -/
def stripBg (t : List Char) : Bool × List Char :=
  if t.getLast? = some '&' then (true, trimR t.dropLast) else (false, t)

/-- The line dispatch of `Shell::run` (src/shell.rs): trim; skip empty
lines; strip a trailing `&`; any line containing `|` goes to
`parse_pipeline`/`run_pipeline`, everything else to `Command::parse`. -/
def shellDispatch (exec : List Char → Except String (List Char))
    (input : List Char) : Dispatch :=
  let t := trimR input
  if t.isEmpty then .empty
  else
    let bg := stripBg t
    if '|' ∈ bg.2 then .pipeline bg.1 (parsePipelineR bg.2)
    else .single bg.1 (parseCommand exec bg.2)

/-- Outcome of `run_pipeline` (src/pipes.rs), keeping the indices of the
stages that were spawned and of those whose exit was awaited.  `err i`
is the early `?`-return when spawning stage `i` fails. -/
inductive PipeOutcome where
  | ok (spawned awaited : List Nat)
  | err (spawned awaited : List Nat) (failed : Nat)
  deriving Repr, DecidableEq

/-- The spawn loop of `run_pipeline` (src/pipes.rs): empty stages are
skipped (`continue`); a spawn failure returns the error immediately via
`?`, so the wait loop is never reached and the `children` vector is
dropped without waiting.  When every spawn succeeds, the wait loop awaits
every spawned child in spawn order. -/
def runPipelineGo (spawnOk : Nat → Bool) :
    List (List (List Char)) → Nat → List Nat → PipeOutcome
  | [], _, spawned => .ok spawned spawned
  | c :: rest, i, spawned =>
    if c.isEmpty then runPipelineGo spawnOk rest (i + 1) spawned
    else if spawnOk i then runPipelineGo spawnOk rest (i + 1) (spawned ++ [i])
    else .err spawned [] i

/-- `run_pipeline` (src/pipes.rs); `spawnOk i` is the oracle for whether
`Command::spawn` succeeds for stage `i`. -/
def runPipelineR (cmds : List (List (List Char))) (spawnOk : Nat → Bool) :
    PipeOutcome :=
  if cmds.isEmpty then .ok [] [] else runPipelineGo spawnOk cmds 0 []

/-- Trailing-backslash test of `Shell::read_input_with_continuation`
(src/shell.rs): the trimmed line ends in a backslash and the run of
trailing backslashes has odd length. -/
def oddTrailingBackslash (l : List Char) : Bool :=
  l.getLast? = some '\\' && countTrailing '\\' l % 2 = 1

/-- The accumulation loop of `Shell::read_input_with_continuation`
(src/shell.rs) over the successive lines returned by the line editor.
A line whose trimmed form ends in an odd backslash run has the backslash
removed and is appended (after a joining space when the accumulator is a
non-empty continuation); any other line is appended after a newline (when
not first), and the loop ends unless quotes are left open.  `none` means
the editor's line supply was exhausted while continuation was still
required. -/
def readInputGo : List (List Char) → List Char → Bool → Option (List Char)
  | [], _, _ => none
  | line :: rest, full, first =>
    let lt := trimEndR line
    if oddTrailingBackslash lt then
      let full' := (if !first && !full.isEmpty then full ++ [' '] else full)
        ++ lt.dropLast
      readInputGo rest full' false
    else
      let full' := (if !first then full ++ ['\n'] else full) ++ line
      if needsLineContinuation full' then readInputGo rest full' false
      else some full'

/-- `Shell::read_input_with_continuation` (src/shell.rs). -/
def readInputWithContinuation (lines : List (List Char)) : Option (List Char) :=
  readInputGo lines [] true

/-- `History::next` (src/history.rs).  The source computes
`self.commands.len() - 1` on a `usize`; that subtraction is modelled with
wrapping semantics (`(len + 2^64 - 1) % 2^64`, release build; a debug
build panics right there when the history is empty), and the source's
panicking index `self.commands[self.position]` is modelled by `List.get?`.
The outer `none` marks a panic (wrapped comparison followed by an
out-of-bounds index); a normal return gives the entry delivered (or
`none` at the edge) and the new position. -/
def historyNext (commands : List (List Char)) (position : Nat) :
    Option (Option (List Char) × Nat) :=
  let lenm1 := (commands.length + (2 ^ 64 - 1)) % 2 ^ 64
  if position < lenm1 then
    match commands.get? (position + 1) with
    | some s => some (some s, position + 1)
    | none => none
  else
    some (none, commands.length)

/-- A job record of src/jobs.rs (`Job`); the owned `Child` handle is
represented by its pid, which the poll oracle consumes. -/
structure JobR where
  id : Nat
  pid : Nat
  command : List Char
  deriving Repr, DecidableEq

/-- Result of `Child::try_wait` in `JobManager::update_jobs`
(src/jobs.rs): `Ok(Some(status))`, `Ok(None)`, or `Err(e)`. -/
inductive PollResult where
  | exited
  | running
  | pollErr
  deriving Repr, DecidableEq

/-- `JobManager` (src/jobs.rs): the `jobs` hash map is modelled as the
list of its entries, and `next_id` is the id counter. -/
structure JobManagerR where
  jobs : List JobR
  nextId : Nat

/-- `JobManager::new` (src/jobs.rs). -/
def JobManagerR.new : JobManagerR := ⟨[], 1⟩

/-- `JobManager::add_job` (src/jobs.rs): store the job under `next_id`,
increment the counter, return the id.  `next_id` is a `u32`, so the
`self.next_id += 1` is modelled with wrapping semantics
(`(next_id + 1) % 2^32`, release build; a debug build panics on the
overflowing increment instead). -/
def addJob (s : JobManagerR) (pid : Nat) (command : List Char) :
    Nat × JobManagerR :=
  (s.nextId, ⟨s.jobs ++ [⟨s.nextId, pid, command⟩], (s.nextId + 1) % 2 ^ 32⟩)

/-- `JobManager::update_jobs` (src/jobs.rs): poll every live job without
blocking; the jobs whose poll reports exit are reported (the printed
completion lines) and evicted in the same pass; polls returning
`Ok(None)` or `Err` leave the job in place. -/
def updateJobs (poll : Nat → PollResult) (s : JobManagerR) :
    List JobR × JobManagerR :=
  (s.jobs.filter (fun j => poll j.pid = .exited),
   ⟨s.jobs.filter (fun j => ¬ poll j.pid = .exited), s.nextId⟩)

/-- `JobManager::remove_job` (src/jobs.rs). -/
def removeJob (id : Nat) (s : JobManagerR) : Option JobR × JobManagerR :=
  (s.jobs.find? (fun j => j.id = id),
   ⟨s.jobs.filter (fun j => ¬ j.id = id), s.nextId⟩)

/-- Insertion into a list sorted by ascending id (helper for
`list_jobs`'s `sort_by_key`). -/
def insertById (j : JobR) : List JobR → List JobR
  | [] => [j]
  | k :: rest => if j.id ≤ k.id then j :: k :: rest else k :: insertById j rest

/-- `JobManager::list_jobs` (src/jobs.rs): all active jobs ordered by
ascending id. -/
def listJobs (s : JobManagerR) : List JobR :=
  s.jobs.foldr insertById []

/-- One call against the job manager's API, for stating session-long
invariants over any sequence of calls. -/
inductive JobOp where
  | add (pid : Nat) (command : List Char)
  | update (poll : Nat → PollResult)
  | remove (id : Nat)

/-- Run a sequence of job-manager calls. -/
def runOps (s : JobManagerR) : List JobOp → JobManagerR
  | [] => s
  | .add pid cmd :: ops => runOps (addJob s pid cmd).2 ops
  | .update poll :: ops => runOps (updateJobs poll s).2 ops
  | .remove id :: ops => runOps (removeJob id s).2 ops

/-- The ids returned by the successive `add_job` calls of a call
sequence, in call order. -/
def addedIds (s : JobManagerR) : List JobOp → List Nat
  | [] => []
  | .add pid cmd :: ops =>
    (addJob s pid cmd).1 :: addedIds (addJob s pid cmd).2 ops
  | .update poll :: ops => addedIds (updateJobs poll s).2 ops
  | .remove id :: ops => addedIds (removeJob id s).2 ops

/-- Number of `add` calls in a sequence. -/
def countAdds : List JobOp → Nat
  | [] => 0
  | .add _ _ :: ops => countAdds ops + 1
  | .update _ :: ops => countAdds ops
  | .remove _ :: ops => countAdds ops

/-- `RedirectType` (src/redirects.rs). -/
inductive RedirectTypeR where
  | stdinFrom (file : List Char)
  | stdoutTo (file : List Char)
  | stdoutAppend (file : List Char)
  | stderrTo (file : List Char)
  | stderrAppend (file : List Char)
  | bothTo (file : List Char)
  deriving Repr, DecidableEq

/-- How `ParsedCommand::execute` (src/redirects.rs) opens each redirect
target file. -/
inductive OpenMode where
  | readExisting
  | truncateOrCreate
  | createOrAppend
  deriving Repr, DecidableEq

/-- The file-open mode used for each redirect in `ParsedCommand::execute`
(src/redirects.rs): `File::open` for `<`; `File::create` (truncate or
create) for `>`, `2>` and `&>`; `OpenOptions::new().create(true)
.append(true)` for `>>` and `2>>`. -/
def openMode : RedirectTypeR → OpenMode
  | .stdinFrom _ => .readExisting
  | .stdoutTo _ => .truncateOrCreate
  | .stdoutAppend _ => .createOrAppend
  | .stderrTo _ => .truncateOrCreate
  | .stderrAppend _ => .createOrAppend
  | .bothTo _ => .truncateOrCreate

/-- Flush the current word into the token list (the
`if !current.is_empty() { tokens.push(...) }` steps of
`tokenize_with_redirects`, src/redirects.rs). -/
def flushTok (toks : List (List Char)) (cur : List Char) : List (List Char) :=
  if cur.isEmpty then toks else toks ++ [cur]

/-- The loop of `tokenize_with_redirects` (src/redirects.rs): split on
spaces outside quotes, with `>`, `>>`, `<`, `2>`, `2>>` and `&>`
recognised as standalone tokens outside quotes; quote characters toggle
quoting and are dropped.  The source peeks one character ahead for the
two-character operators; here the lookahead is expressed by matching up
to three characters, with the quoted case pushing the head and
re-processing the remainder exactly as the source's fall-through `_` arm
does. -/
def tokRedGo : List Char → List (List Char) → List Char → Bool → Char →
    List (List Char)
  | [], toks, cur, _, _ => flushTok toks cur
  | '"' :: rest, toks, cur, inq, qc =>
    if !inq then tokRedGo rest toks cur true '"'
    else if qc = '"' then tokRedGo rest toks cur false qc
    else tokRedGo rest toks (cur ++ ['"']) inq qc
  | '\'' :: rest, toks, cur, inq, qc =>
    if !inq then tokRedGo rest toks cur true '\''
    else if qc = '\'' then tokRedGo rest toks cur false qc
    else tokRedGo rest toks (cur ++ ['\'']) inq qc
  | ' ' :: rest, toks, cur, inq, qc =>
    if !inq then tokRedGo rest (flushTok toks cur) [] inq qc
    else tokRedGo rest toks (cur ++ [' ']) inq qc
  | '>' :: '>' :: rest, toks, cur, inq, qc =>
    if !inq then tokRedGo rest (flushTok toks cur ++ [['>', '>']]) [] inq qc
    else tokRedGo ('>' :: rest) toks (cur ++ ['>']) inq qc
  | '>' :: rest, toks, cur, inq, qc =>
    if !inq then tokRedGo rest (flushTok toks cur ++ [['>']]) [] inq qc
    else tokRedGo rest toks (cur ++ ['>']) inq qc
  | '<' :: rest, toks, cur, inq, qc =>
    if !inq then tokRedGo rest (flushTok toks cur ++ [['<']]) [] inq qc
    else tokRedGo rest toks (cur ++ ['<']) inq qc
  | '2' :: '>' :: '>' :: rest, toks, cur, inq, qc =>
    if !inq then tokRedGo rest (flushTok toks cur ++ [['2', '>', '>']]) [] inq qc
    else tokRedGo ('>' :: '>' :: rest) toks (cur ++ ['2']) inq qc
  | '2' :: '>' :: rest, toks, cur, inq, qc =>
    if !inq then tokRedGo rest (flushTok toks cur ++ [['2', '>']]) [] inq qc
    else tokRedGo ('>' :: rest) toks (cur ++ ['2']) inq qc
  | '&' :: '>' :: rest, toks, cur, inq, qc =>
    if !inq then tokRedGo rest (flushTok toks cur ++ [['&', '>']]) [] inq qc
    else tokRedGo ('>' :: rest) toks (cur ++ ['&']) inq qc
  | c :: rest, toks, cur, inq, qc =>
    tokRedGo rest toks (cur ++ [c]) inq qc

/-- `tokenize_with_redirects` (src/redirects.rs). -/
def tokenizeWithRedirects (input : List Char) : List (List Char) :=
  tokRedGo input [] [] false ' '

/-- The token scan of `ParsedCommand::parse` (src/redirects.rs): each
redirect operator consumes the following token as its file path (an
operator with no following token is reported and skipped); all other
tokens become the command words. -/
def collectRedirects : List (List Char) →
    List (List Char) × List RedirectTypeR
  | [] => ([], [])
  | t :: rest =>
    if t = ['<'] then
      match rest with
      | f :: rest' =>
        let r := collectRedirects rest'
        (r.1, .stdinFrom f :: r.2)
      | [] => ([], [])
    else if t = ['>'] then
      match rest with
      | f :: rest' =>
        let r := collectRedirects rest'
        (r.1, .stdoutTo f :: r.2)
      | [] => ([], [])
    else if t = ['>', '>'] then
      match rest with
      | f :: rest' =>
        let r := collectRedirects rest'
        (r.1, .stdoutAppend f :: r.2)
      | [] => ([], [])
    else if t = ['2', '>'] then
      match rest with
      | f :: rest' =>
        let r := collectRedirects rest'
        (r.1, .stderrTo f :: r.2)
      | [] => ([], [])
    else if t = ['2', '>', '>'] then
      match rest with
      | f :: rest' =>
        let r := collectRedirects rest'
        (r.1, .stderrAppend f :: r.2)
      | [] => ([], [])
    else if t = ['&', '>'] then
      match rest with
      | f :: rest' =>
        let r := collectRedirects rest'
        (r.1, .bothTo f :: r.2)
      | [] => ([], [])
    else
      let r := collectRedirects rest
      (t :: r.1, r.2)

/-- `ParsedCommand` (src/redirects.rs). -/
structure ParsedCommandR where
  program : List Char
  args : List (List Char)
  redirects : List RedirectTypeR
  deriving Repr, DecidableEq

/-- `ParsedCommand::parse` (src/redirects.rs). -/
def parsedCommandParse (input : List Char) : ParsedCommandR :=
  let r := collectRedirects (tokenizeWithRedirects input)
  { program := r.1.head?.getD []
    args := r.1.tail
    redirects := r.2 }

/-- Index of the last element of `l` satisfying `p`
(Rust `str::rfind`). -/
def lastIdxOf (p : Char → Bool) : List Char → Option Nat
  | [] => none
  | c :: rest =>
    match lastIdxOf p rest with
    | some i => some (i + 1)
    | none => if p c then some 0 else none

/-- Token start used by both `handle_tab_completion` implementations
(src/input.rs and src/editor/core.rs): one past the last whitespace
before the cursor, else 0. -/
def tokenStartR (buf : List Char) (cursor : Nat) : Nat :=
  match lastIdxOf isWs (buf.take cursor) with
  | some i => i + 1
  | none => 0

/-- The token under the cursor: `buffer[token_start..cursor]`. -/
def tokenR (buf : List Char) (cursor : Nat) : List Char :=
  (buf.take cursor).drop (tokenStartR buf cursor)

/-- Rust `str::starts_with(prefix)`. -/
def startsWith : List Char → List Char → Bool
  | [], _ => true
  | _ :: _, [] => false
  | p :: ps, c :: cs => p = c && startsWith ps cs

/-- Lexicographic comparison of strings by character code (the `Ord`
order Rust's `Vec::<String>::sort` uses; byte order and character order
coincide on the ASCII inputs considered here). -/
def lexLe : List Char → List Char → Bool
  | [], _ => true
  | _ :: _, [] => false
  | a :: as, b :: bs => if a = b then lexLe as bs else decide (a < b)

/-- Insertion step of the sort used to model `Vec::sort`. -/
def insertLex (x : List Char) : List (List Char) → List (List Char)
  | [] => [x]
  | y :: ys => if lexLe x y then x :: y :: ys else y :: insertLex x ys

/-- `Vec::<String>::sort` modelled as insertion sort by `lexLe`. -/
def sortLex (l : List (List Char)) : List (List Char) :=
  l.foldr insertLex []

/-- `Vec::dedup`: remove consecutive repeated elements. -/
def dedupConsec : List (List Char) → List (List Char)
  | [] => []
  | [x] => [x]
  | x :: y :: rest =>
    if x = y then dedupConsec (y :: rest) else x :: dedupConsec (y :: rest)

/-- Filesystem / `PATH` oracle for the two completion engines.  Each
`readDir…` field gives the (name, is_directory) entries that the
respective helper's directory resolution and `fs::read_dir` produce for
a given directory-part string (src/input.rs resolves via `dir_to_read`
with a `.`-fallback, src/editor/completion.rs reads the directory
directly; both read `.` for the current-directory part).  Each
`pathCommands…` field gives the result of the respective
`list_path_commands` (they scan `PATH` with slightly different
executable filters), which the theorems below never constrain. -/
structure CompFS where
  readDirInput : List Char → List (List Char × Bool)
  readDirCore : List Char → List (List Char × Bool)
  pathCommandsInput : List Char → List (List Char)
  pathCommandsCore : List Char → List (List Char)

/-- `list_dir_matches` of src/input.rs: each matching entry name is
prefixed with the *dir_part as given* (`candidate =
format!("{}{}", dir_part, name)`), a `/` is appended for directories,
and the result is sorted and deduplicated. -/
def inputListDirMatches (fs : CompFS) (dirPart pref : List Char) :
    List (List Char) :=
  dedupConsec (sortLex ((fs.readDirInput dirPart).filterMap
    (fun e => if startsWith pref e.1 then
      some (dirPart ++ e.1 ++ (if e.2 then ['/'] else [])) else none)))

/-- `list_dir_matches` of src/editor/completion.rs: bare entry names
(no directory prefix), a `/` appended for directories, sorted (no
dedup). -/
def coreListDirMatches (fs : CompFS) (dir pref : List Char) :
    List (List Char) :=
  sortLex ((fs.readDirCore dir).filterMap
    (fun e => if startsWith pref e.1 then
      some (e.1 ++ (if e.2 then ['/'] else [])) else none))

/-- `common_prefix` of src/input.rs: fold the candidate list, keeping the
run of pairwise-equal leading characters. -/
def commonPrefixFold (strings : List (List Char)) : List Char :=
  match strings with
  | [] => []
  | first :: rest =>
    rest.foldl
      (fun pref s => ((pref.zip s).takeWhile (fun p => p.1 = p.2)).map Prod.fst)
      first

/-- `common_prefix` of src/editor/completion.rs: minimise, over the tail,
the count of equal zipped characters with the first candidate, then take
that many characters of the first. -/
def commonPrefixCore (strings : List (List Char)) : List Char :=
  match strings with
  | [] => []
  | first :: rest =>
    let n := rest.foldl
      (fun n s => min n ((first.zip s).takeWhile (fun p => p.1 = p.2)).length)
      first.length
    first.take n

/-- `split_dir_prefix` of src/input.rs: directory part keeps the trailing
slash. -/
def inputSplitDirPrefix (t : List Char) : Option (List Char × List Char) :=
  match lastIdxOf (fun c => c = '/') t with
  | some pos => some (t.take (pos + 1), t.drop (pos + 1))
  | none => none

/-- `split_dir_prefix` of src/editor/completion.rs: directory part without
the slash (`"/"` when the slash is the first character). -/
def coreSplitDirPrefix (t : List Char) : Option (List Char × List Char) :=
  match lastIdxOf (fun c => c = '/') t with
  | some idx =>
    some ((if idx = 0 then ['/'] else t.take idx), t.drop (idx + 1))
  | none => none

/-- Buffer update common to all completing branches of src/input.rs's
`handle_tab_completion`: insert the remainder at the cursor. -/
def insertAtCursor (buf : List Char) (cursor : Nat) (ins : List Char) :
    List Char × Nat × Bool :=
  (buf.take cursor ++ ins ++ buf.drop cursor, cursor + ins.length, true)

/-- One completion branch of src/input.rs's `handle_tab_completion`:
extend by the common prefix when it is longer than the existing prefix,
else by the first match when that is longer, else report no change. -/
def inputTabBranch (buf : List Char) (cursor : Nat) (pref : List Char)
    (ms : List (List Char)) : List Char × Nat × Bool :=
  if ms.isEmpty then (buf, cursor, false)
  else
    let common := commonPrefixFold ms
    if common.length > pref.length then
      insertAtCursor buf cursor (common.drop pref.length)
    else
      let first := ms.head?.getD []
      if first.length > pref.length then
        insertAtCursor buf cursor (first.drop pref.length)
      else (buf, cursor, false)

/-- `LineEditor::handle_tab_completion` of src/input.rs, with the
filesystem listings supplied by the oracle.  Returns the new buffer, the
new cursor, and the returned change flag. -/
def inputTab (fs : CompFS) (buf : List Char) (cursor : Nat) :
    List Char × Nat × Bool :=
  let ts := tokenStartR buf cursor
  let t := tokenR buf cursor
  if t.isEmpty then (buf, cursor, false)
  else if '/' ∈ t then
    match inputSplitDirPrefix t with
    | none => (buf, cursor, false)
    | some (dir, pref) =>
      inputTabBranch buf cursor pref (inputListDirMatches fs dir pref)
  else if ts = 0 then inputTabBranch buf cursor t (fs.pathCommandsInput t)
  else inputTabBranch buf cursor t (inputListDirMatches fs ['.'] t)

/-- Buffer update of the completing branches of src/editor/core.rs's
`handle_tab_completion`: replace the token span with the completion and
put the cursor after it. -/
def replaceToken (buf : List Char) (ts cursor : Nat) (repl : List Char) :
    List Char × Nat × Bool :=
  (buf.take ts ++ repl ++ buf.drop cursor, ts + repl.length, true)

/-- One completion branch of src/editor/core.rs's
`handle_tab_completion`: replace with the common prefix when it is longer
than the existing prefix; otherwise, when exactly one match remains,
replace with that full match (returning `true` even when it equals the
existing token); else report no change.  `mk` rebuilds the full
replacement text (prepending the directory part in the path branch). -/
def coreTabBranch (buf : List Char) (ts cursor : Nat) (pref : List Char)
    (ms : List (List Char)) (mk : List Char → List Char) :
    List Char × Nat × Bool :=
  if ms.isEmpty then (buf, cursor, false)
  else
    let common := commonPrefixCore ms
    if common.length > pref.length then
      replaceToken buf ts cursor (mk common)
    else if ms.length = 1 then
      replaceToken buf ts cursor (mk (ms.head?.getD []))
    else (buf, cursor, false)

/-- `LineEditor::handle_tab_completion` of src/editor/core.rs, with the
filesystem listings supplied by the oracle. -/
def coreTab (fs : CompFS) (buf : List Char) (cursor : Nat) :
    List Char × Nat × Bool :=
  let ts := tokenStartR buf cursor
  let t := tokenR buf cursor
  if t.isEmpty then (buf, cursor, false)
  else if '/' ∈ t then
    match coreSplitDirPrefix t with
    | none => (buf, cursor, false)
    | some (dir, pref) =>
      coreTabBranch buf ts cursor pref (coreListDirMatches fs dir pref)
        (fun cand => if dir = ['.'] then cand else dir ++ '/' :: cand)
  else if ts = 0 then
    coreTabBranch buf ts cursor t (fs.pathCommandsCore t) id
  else
    coreTabBranch buf ts cursor t (coreListDirMatches fs ['.'] t) id

/-!
## Concrete oracles used by closed evaluations
-/

/-- A subshell-execution oracle that always fails; the inputs evaluated
with it contain no parentheses, so it is never consulted. -/
def execStub : List Char → Except String (List Char) := fun _ => .error "x"

/-- A filesystem oracle on which the current directory contains exactly
one entry, a file named `foo`, and the search path is empty. -/
def fsFoo : CompFS where
  readDirInput := fun d => if d = ['.'] then [("foo".toList, false)] else []
  readDirCore := fun d => if d = ['.'] then [("foo".toList, false)] else []
  pathCommandsInput := fun _ => []
  pathCommandsCore := fun _ => []

/-!
## Claim theorems
-/

/-- C1, counterexample.  The claim says a line containing `;` outside
quotes is split into sub-commands evaluated with short-circuit semantics,
so that `true ; echo X` prints `X`.  In the code no chain splitting
exists: `Shell::run` hands `true ; echo X` (which contains no `|`) to
`Command::parse`, which produces the single external command `true` with
the literal arguments `;`, `echo`, `X`.  No `echo` command is ever
dispatched, so `X` is not printed. -/
theorem chain_semicolon_not_split :
    shellDispatch execStub "true ; echo X".toList =
      .single false (some (.external "true".toList
        [[';'], "echo".toList, ['X']] false)) := by
  decide

/-- C1, amended claim.  The shell performs no chain splitting.  A line
containing `&&` or `;` and no `|` is parsed as one command whose program
is the first word and whose arguments include the operators literally, so
neither `false && echo X` nor `true ; echo X` ever dispatches `echo`.  A
line containing `||` is routed to the pipeline executor and split at each
`|` character: `false || echo X` becomes the stages
`[false]`, `[]` (skipped by `run_pipeline`), `[echo X]`, and the `echo`
stage is spawned regardless of the result of `false`. -/
theorem chain_operators_literal :
    shellDispatch execStub "false && echo X".toList =
      .single false (some (.external "false".toList
        [['&', '&'], "echo".toList, ['X']] false)) ∧
    shellDispatch execStub "true ; echo X".toList =
      .single false (some (.external "true".toList
        [[';'], "echo".toList, ['X']] false)) ∧
    shellDispatch execStub "false || echo X".toList =
      .pipeline false [["false".toList], [], ["echo".toList, ['X']]] ∧
    runPipelineR [["false".toList], [], ["echo".toList, ['X']]]
      (fun _ => true) = .ok [0, 2] [0, 2] := by
  refine ⟨by decide, by decide, by decide, by decide⟩

/-- C2.  The claim says executing `echo hi > f.txt` through the shell
truncates/creates `f.txt` with content `hi\n`.  `Shell::run` routes every
pipe-free line to `Command::parse`, so the line becomes the `echo`
builtin with the literal arguments `hi`, `>`, `f.txt` and prints
`hi > f.txt` to stdout; no file is opened.  The redirection module
(src/redirects.rs) does implement exactly the claimed open modes —
`ParsedCommand::parse` extracts `>`/`>>` specs and `ParsedCommand::execute`
opens `>`-family targets with truncate-or-create and `>>`-family targets
with create-or-append — but `Shell::run` never calls it. -/
theorem redirection_unwired :
    shellDispatch execStub "echo hi > f.txt".toList =
      .single false (some (.echo [['h', 'i'], ['>'], "f.txt".toList])) ∧
    parsedCommandParse "echo hi > f.txt".toList =
      ⟨"echo".toList, [['h', 'i']], [.stdoutTo "f.txt".toList]⟩ ∧
    parsedCommandParse "echo bye >> f.txt".toList =
      ⟨"echo".toList, ["bye".toList], [.stdoutAppend "f.txt".toList]⟩ ∧
    openMode (.stdoutTo "f.txt".toList) = .truncateOrCreate ∧
    openMode (.stderrTo "f.txt".toList) = .truncateOrCreate ∧
    openMode (.bothTo "f.txt".toList) = .truncateOrCreate ∧
    openMode (.stdoutAppend "f.txt".toList) = .createOrAppend ∧
    openMode (.stderrAppend "f.txt".toList) = .createOrAppend := by
  refine ⟨by decide, by decide, by decide, rfl, rfl, rfl, rfl, rfl⟩

/-- C5, counterexample.  The claim says parsing `echo 'a\ b'` preserves
the backslash (no escape processing inside single quotes for characters
outside the escape table).  `Command::parse_args_with_state` processes
backslash escapes inside single quotes exactly as elsewhere, and an
escaped character outside the table is passed through without its
backslash: the argument produced is `a b`, not `a\ b`. -/
theorem single_quote_escape_processed :
    parseArgs "echo 'a\\ b'".toList = ["echo".toList, "a b".toList] ∧
    parseArgs "echo 'a\\ b'".toList ≠ ["echo".toList, "a\\ b".toList] := by
  refine ⟨by decide, by decide⟩

/-- C5, amended claim.  Parsing `echo "a b"` yields the single argument
`a b`.  Inside single quotes the same backslash-escape processing applies
as everywhere else: table escapes are translated (`'a\nb'` yields a
literal newline) and any other escaped character is kept without its
backslash, so `echo 'a\ b'` yields `a b`. -/
theorem quoting_roundtrip :
    parseArgs "echo \"a b\"".toList = ["echo".toList, "a b".toList] ∧
    parseArgs "echo 'a\\ b'".toList = ["echo".toList, "a b".toList] ∧
    parseArgs "echo 'a\\nb'".toList = ["echo".toList, "a\nb".toList] := by
  refine ⟨by decide, by decide, by decide⟩

/-- C6.  The claim says `History::next` is total for every position in
`[0, length]`, including the empty history, and never underflows.  With
an empty history (`commands = []`, `position = 0`) the source computes
`self.commands.len() - 1`, which underflows the `usize`: a debug build
panics there, and a release build wraps to `2^64 - 1`, making the guard
pass and `self.commands[1]` panic with an out-of-bounds index.  The model
returns `none` (panic) where the claim requires the normal at-the-edge
result `some (none, 0)`. -/
theorem history_next_empty_panics :
    historyNext [] 0 = none ∧ historyNext [] 0 ≠ some (none, 0) := by
  refine ⟨by decide, by decide⟩

/-- C8, counterexample.  The claim says completion on a token already
equal to the sole match reports no buffer change.  In the
src/editor/core.rs handler the sole-match branch removes the token span
and re-inserts the match unconditionally: with buffer `cat foo`, cursor
at the end and the sole current-directory match `foo`, the buffer
contents and cursor are unchanged but the handler returns `true`,
reporting a change (and triggering a redraw). -/
theorem core_completion_reports_change :
    coreTab fsFoo "cat foo".toList 7 = ("cat foo".toList, 7, true) := by
  decide

/-- Helper for C3: when the spawn loop of `run_pipeline` ends in the
early `?`-return, nothing is awaited, the failing index is at least the
running index, and every recorded spawned stage precedes the failure. -/
theorem runPipelineGo_err (spawnOk : Nat → Bool) :
    ∀ (l : List (List (List Char)))
      (i : Nat) (spawned sp aw : List Nat) (k : Nat),
      runPipelineGo spawnOk l i spawned = .err sp aw k →
      (∀ j ∈ spawned, j < i) →
      aw = [] ∧ i ≤ k ∧ ∀ j ∈ sp, j < k := by
  intro l
  induction l with
  | nil => intro i spawned sp aw k h _; simp [runPipelineGo] at h
  | cons c rest ih =>
    intro i spawned sp aw k h hinv
    by_cases hc : c.isEmpty
    · have h' : runPipelineGo spawnOk rest (i + 1) spawned = .err sp aw k := by
        simpa [runPipelineGo, hc] using h
      have := ih (i + 1) spawned sp aw k h'
        (fun j hj => Nat.lt_succ_of_lt (hinv j hj))
      exact ⟨this.1, Nat.le_of_succ_le this.2.1, this.2.2⟩
    · by_cases hs : spawnOk i
      · have h' : runPipelineGo spawnOk rest (i + 1) (spawned ++ [i]) =
            .err sp aw k := by
          simpa [runPipelineGo, hc, hs] using h
        have := ih (i + 1) (spawned ++ [i]) sp aw k h' (by
          intro j hj
          rcases List.mem_append.1 hj with hj | hj
          · exact Nat.lt_succ_of_lt (hinv j hj)
          · simp at hj; omega)
        exact ⟨this.1, Nat.le_of_succ_le this.2.1, this.2.2⟩
      · have h' : PipeOutcome.err spawned [] i = .err sp aw k := by
          simpa [runPipelineGo, hc, hs] using h
        cases h'
        exact ⟨rfl, Nat.le_refl _, hinv⟩

/-- Helper for C3: when the spawn loop succeeds, the wait loop awaits
exactly the spawned stages. -/
theorem runPipelineGo_ok (spawnOk : Nat → Bool) :
    ∀ (l : List (List (List Char))) (i : Nat) (spawned sp aw : List Nat),
      runPipelineGo spawnOk l i spawned = .ok sp aw → aw = sp := by
  intro l
  induction l with
  | nil =>
    intro i spawned sp aw h
    simp [runPipelineGo] at h
    obtain ⟨rfl, rfl⟩ := h
    rfl
  | cons c rest ih =>
    intro i spawned sp aw h
    by_cases hc : c.isEmpty
    · exact ih (i + 1) spawned sp aw (by simpa [runPipelineGo, hc] using h)
    · by_cases hs : spawnOk i
      · exact ih (i + 1) (spawned ++ [i]) sp aw
          (by simpa [runPipelineGo, hc, hs] using h)
      · simp [runPipelineGo, hc, hs] at h

/-- C3, counterexample.  The claim says already-spawned stages are still
awaited when a later spawn fails.  With three non-empty stages and the
spawn oracle failing from stage 1 on, `run_pipeline` spawns stage 0, then
returns the stage-1 spawn error via `?`; the `children` vector (holding
stage 0) is dropped without any `wait`, so the awaited list is empty, not
`[0]`. -/
theorem pipeline_failure_drops_spawned :
    runPipelineR [[['a']], [['b']], [['c']]] (fun i => decide (i = 0)) =
      .err [0] [] 1 := by
  decide

/-- C3, amended claim.  If spawning stage `i` fails, no stage after `i`
is created (every spawned stage index precedes the failing one), but the
already-spawned stages are **not** awaited: `run_pipeline` returns the
spawn error immediately and drops their handles without collecting their
exit.  Only when every spawn succeeds does the wait loop await every
spawned stage. -/
theorem pipeline_spawn_failure_behavior
    (cmds : List (List (List Char))) (spawnOk : Nat → Bool) :
    (∀ sp aw k, runPipelineR cmds spawnOk = .err sp aw k →
      aw = [] ∧ ∀ j ∈ sp, j < k) ∧
    (∀ sp aw, runPipelineR cmds spawnOk = .ok sp aw → aw = sp) := by
  constructor
  · intro sp aw k h
    by_cases hc : cmds.isEmpty
    · simp [runPipelineR, hc] at h
    · have h' : runPipelineGo spawnOk cmds 0 [] = .err sp aw k := by
        simpa [runPipelineR, hc] using h
      have := runPipelineGo_err spawnOk cmds 0 [] sp aw k h' (by simp)
      exact ⟨this.1, this.2.2⟩
  · intro sp aw h
    by_cases hc : cmds.isEmpty
    · have h' : PipeOutcome.ok [] [] = .ok sp aw := by
        simpa [runPipelineR, hc] using h
      cases h'; rfl
    · exact runPipelineGo_ok spawnOk cmds 0 [] sp aw
        (by simpa [runPipelineR, hc] using h)

/-- C3, witness: the amended behavior evaluated on a one-stage pipeline
whose spawn fails, and on a two-stage pipeline whose spawns succeed. -/
theorem pipeline_spawn_failure_behavior_witness :
    runPipelineR [[['a']]] (fun _ => false) = .err [] [] 0 ∧
    ([] : List Nat) = [] ∧ (∀ j ∈ ([] : List Nat), j < 0) ∧
    runPipelineR [[['a']], [['b']]] (fun _ => true) = .ok [0, 1] [0, 1] ∧
    ([0, 1] : List Nat) = [0, 1] := by
  refine ⟨by decide, ?_, ?_, by decide, ?_⟩
  · exact ((pipeline_spawn_failure_behavior [[['a']]] (fun _ => false)).1
      [] [] 0 (by decide)).1
  · exact ((pipeline_spawn_failure_behavior [[['a']]] (fun _ => false)).1
      [] [] 0 (by decide)).2
  · exact (pipeline_spawn_failure_behavior [[['a']], [['b']]] (fun _ => true)).2
      [0, 1] [0, 1] (by decide)

/-- C4, counterexample.  The claim says the line after a
backslash-continuation is joined with a single space.  Submitting `a\`
then `b` produces `a\nb` (the backslash is removed, but the following
line is appended after a newline, the separator of the quote-continuation
path), not `a b`. -/
theorem continuation_newline_counterexample :
    readInputWithContinuation ["a\\".toList, ['b']] = some "a\nb".toList ∧
    readInputWithContinuation ["a\\".toList, ['b']] ≠ some "a b".toList := by
  refine ⟨by decide, by decide⟩

/-- C4, amended claim.  A line whose trailing-whitespace-stripped form
ends in an odd run of backslashes does require a continuation line, and
the final backslash is removed; but the join separator depends on the
next line: a following line that itself ends in an odd backslash run is
appended after a single space (when the accumulator is non-empty), while
a following line without such a trailing backslash is appended after a
newline.  A line ending in an even run (such as two backslashes) does not
require continuation for that reason. -/
theorem continuation_join_behavior :
    (∀ l1 l2 : List Char,
      oddTrailingBackslash (trimEndR l1) = true →
      oddTrailingBackslash (trimEndR l2) = false →
      needsLineContinuation ((trimEndR l1).dropLast ++ '\n' :: l2) = false →
      readInputWithContinuation [l1, l2] =
        some ((trimEndR l1).dropLast ++ '\n' :: l2)) ∧
    (∀ l1 l2 l3 : List Char,
      oddTrailingBackslash (trimEndR l1) = true →
      oddTrailingBackslash (trimEndR l2) = true →
      (trimEndR l1).dropLast ≠ [] →
      oddTrailingBackslash (trimEndR l3) = false →
      needsLineContinuation ((trimEndR l1).dropLast ++ ' ' ::
        ((trimEndR l2).dropLast ++ '\n' :: l3)) = false →
      readInputWithContinuation [l1, l2, l3] =
        some ((trimEndR l1).dropLast ++ ' ' ::
          ((trimEndR l2).dropLast ++ '\n' :: l3))) ∧
    (∀ l : List Char,
      oddTrailingBackslash (trimEndR l) = false →
      needsLineContinuation l = false →
      readInputWithContinuation [l] = some l) := by
  refine ⟨?_, ?_, ?_⟩
  · intro l1 l2 h1 h2 h3
    simp [readInputWithContinuation, readInputGo, h1, h2, h3]
  · intro l1 l2 l3 h1 h2 hne h3 h4
    simp [readInputWithContinuation, readInputGo, h1, h2, hne, h3, h4]
  · intro l h1 h2
    simp [readInputWithContinuation, readInputGo, h1, h2]

/-- C4, witness: the amended join behavior evaluated on `a\` + `b`
(newline join), `a\` + `b\` + `c` (space then newline join), and the
two-backslash line `a\\` (no continuation). -/
theorem continuation_join_behavior_witness :
    readInputWithContinuation ["a\\".toList, ['b']] = some "a\nb".toList ∧
    readInputWithContinuation ["a\\".toList, "b\\".toList, ['c']] =
      some "a b\nc".toList ∧
    readInputWithContinuation ["a\\\\".toList] = some "a\\\\".toList := by
  refine ⟨?_, ?_, ?_⟩
  · have := continuation_join_behavior.1 "a\\".toList ['b']
      (by decide) (by decide) (by decide)
    simpa using this
  · have := continuation_join_behavior.2.1 "a\\".toList "b\\".toList ['c']
      (by decide) (by decide) (by decide) (by decide) (by decide)
    simpa using this
  · have := continuation_join_behavior.2.2 "a\\\\".toList (by decide) (by decide)
    simpa using this

/-- A character that does not satisfy the predicate survives
`dropWhile`. -/
theorem mem_dropWhile_of_not (p : Char → Bool) :
    ∀ (l : List Char) (c : Char), c ∈ l → p c = false → c ∈ l.dropWhile p := by
  intro l
  induction l with
  | nil => intro c hc _; cases hc
  | cons a rest ih =>
    intro c hc hp
    by_cases ha : p a
    · rcases List.mem_cons.1 hc with rfl | hc
      · rw [ha] at hp; cases hp
      · simpa [List.dropWhile, ha] using ih c hc hp
    · simpa [List.dropWhile, ha] using hc

/-- `dropWhile` only removes characters. -/
theorem mem_of_mem_dropWhile (p : Char → Bool) :
    ∀ (l : List Char) (c : Char), c ∈ l.dropWhile p → c ∈ l := by
  intro l
  induction l with
  | nil => intro c hc; simp at hc
  | cons a rest ih =>
    intro c hc
    by_cases ha : p a
    · simp only [List.dropWhile, ha] at hc
      exact List.mem_cons_of_mem a (ih c hc)
    · simpa [List.dropWhile, ha] using hc

/-- A non-whitespace character of the input survives Rust `str::trim`. -/
theorem mem_trimR (l : List Char) (c : Char) (hc : c ∈ l)
    (hw : isWs c = false) : c ∈ trimR l := by
  have h1 : c ∈ trimStartR l := mem_dropWhile_of_not isWs l c hc hw
  have h2 : c ∈ (trimStartR l).reverse.dropWhile isWs :=
    mem_dropWhile_of_not isWs _ c (List.mem_reverse.2 h1) hw
  simpa [trimR, trimEndR] using List.mem_reverse.2 h2

/-- Characters of the trimmed string come from the input. -/
theorem mem_of_mem_trimR (l : List Char) (c : Char) (hc : c ∈ trimR l) :
    c ∈ l := by
  simp only [trimR, trimEndR, trimStartR, List.mem_reverse] at hc
  exact mem_of_mem_dropWhile isWs l c
    (List.mem_reverse.1 (mem_of_mem_dropWhile isWs _ c hc))

/-- A member different from the last element survives `dropLast`. -/
theorem mem_dropLast_of_ne :
    ∀ (l : List Char) (c d : Char), c ∈ l → l.getLast? = some d → c ≠ d →
      c ∈ l.dropLast := by
  intro l
  induction l with
  | nil => intro c d hc _ _; cases hc
  | cons a rest ih =>
    intro c d hc hlast hne
    cases rest with
    | nil =>
      simp at hlast
      rcases List.mem_singleton.1 hc with rfl
      exact absurd hlast hne
    | cons b rest' =>
      rw [List.getLast?_cons_cons] at hlast
      rcases List.mem_cons.1 hc with rfl | hc
      · simp [List.dropLast]
      · simpa [List.dropLast] using
          Or.inr (ih c d hc hlast hne)

/-- A pipe character of the trimmed line survives the trailing-`&`
stripping of `Shell::run`. -/
theorem mem_stripBg (t : List Char) (h : '|' ∈ t) : '|' ∈ (stripBg t).2 := by
  unfold stripBg
  by_cases hl : t.getLast? = some '&'
  · simp only [hl, if_pos rfl]
    exact mem_trimR _ _ (mem_dropLast_of_ne t '|' '&' h hl (by decide))
      (by decide)
  · simpa [hl] using h

/-- No piece produced by splitting at `|` contains a `|`. -/
theorem splitPipe_no_pipe :
    ∀ (l : List Char) (p : List Char), p ∈ splitPipe l → '|' ∉ p := by
  intro l
  induction l with
  | nil =>
    intro p hp
    simp [splitPipe] at hp
    simp [hp]
  | cons c rest ih =>
    intro p hp
    by_cases hc : c = '|'
    · subst hc
      simp only [splitPipe, if_pos rfl] at hp
      rcases List.mem_cons.1 hp with rfl | hp
      · simp
      · exact ih p hp
    · cases hr : splitPipe rest with
      | nil =>
        simp only [splitPipe, if_neg hc, hr] at hp
        rcases List.mem_singleton.1 hp with rfl
        simpa using Ne.symm hc
      | cons p0 ps =>
        simp only [splitPipe, if_neg hc, hr] at hp
        rcases List.mem_cons.1 hp with rfl | hp
        · intro hmem
          rcases List.mem_cons.1 hmem with h' | h'
          · exact hc h'.symm
          · exact ih p0 (hr ▸ List.mem_cons_self p0 ps) h'
        · exact ih p (hr ▸ List.mem_cons_of_mem p0 hp)

/-- Every character of a word produced by the whitespace-splitting loop
comes from the input or the current-word accumulator. -/
theorem wordsGo_chars :
    ∀ (l cur : List Char) (w : List Char), w ∈ wordsGo l cur →
      ∀ c ∈ w, c ∈ l ∨ c ∈ cur := by
  intro l
  induction l with
  | nil =>
    intro cur w hw c hc
    by_cases hcur : cur.isEmpty
    · simp [wordsGo, hcur] at hw
    · have : w = cur := by simpa [wordsGo, hcur] using hw
      exact Or.inr (this ▸ hc)
  | cons a rest ih =>
    intro cur w hw c hc
    by_cases ha : isWs a
    · by_cases hcur : cur.isEmpty
      · have hw' : w ∈ wordsGo rest [] := by simpa [wordsGo, ha, hcur] using hw
        rcases ih [] w hw' c hc with h | h
        · exact Or.inl (List.mem_cons_of_mem a h)
        · cases h
      · have hw' : w = cur ∨ w ∈ wordsGo rest [] := by
          simpa [wordsGo, ha, hcur] using hw
        rcases hw' with rfl | hw'
        · exact Or.inr hc
        · rcases ih [] w hw' c hc with h | h
          · exact Or.inl (List.mem_cons_of_mem a h)
          · cases h
    · have hw' : w ∈ wordsGo rest (cur ++ [a]) := by
        simpa [wordsGo, ha] using hw
      rcases ih (cur ++ [a]) w hw' c hc with h | h
      · exact Or.inl (List.mem_cons_of_mem a h)
      · rcases List.mem_append.1 h with h | h
        · exact Or.inr h
        · rcases List.mem_singleton.1 h with rfl
          exact Or.inl (List.mem_cons_self _ _)

/-- Every character of a word produced by whitespace splitting comes from
the input. -/
theorem wordsR_chars (l : List Char) (w : List Char) (hw : w ∈ wordsR l) :
    ∀ c ∈ w, c ∈ l := by
  intro c hc
  rcases wordsGo_chars l [] w hw c hc with h | h
  · exact h
  · cases h

/-- C9.  Any submitted line containing `|` anywhere — quoted or not — is
dispatched to the pipeline path: `Shell::run` tests `trimmed.contains('|')`
with no quote awareness, and `parse_pipeline` splits at every `|` and
whitespace-splits each piece, so no token handed to any stage ever
contains a `|` character. -/
theorem quoted_pipe_always_pipeline
    (exec : List Char → Except String (List Char)) (s : List Char)
    (h : '|' ∈ s) :
    shellDispatch exec s =
      .pipeline (stripBg (trimR s)).1 (parsePipelineR (stripBg (trimR s)).2) ∧
    ∀ st ∈ parsePipelineR (stripBg (trimR s)).2, ∀ tok ∈ st, '|' ∉ tok := by
  have ht : '|' ∈ trimR s := mem_trimR s '|' h (by decide)
  have hne : ¬ (trimR s).isEmpty := by
    cases hmt : trimR s with
    | nil => rw [hmt] at ht; cases ht
    | cons a l => simp
  have h2 : '|' ∈ (stripBg (trimR s)).2 := mem_stripBg (trimR s) ht
  constructor
  · simp only [shellDispatch, hne, Bool.false_eq_true, if_false, h2, if_pos]
  · intro st hst tok htok hpipe
    simp only [parsePipelineR, List.mem_map] at hst
    obtain ⟨piece, hpiece, rfl⟩ := hst
    have hin : '|' ∈ piece :=
      mem_of_mem_trimR piece '|' (wordsR_chars (trimR piece) tok htok '|' hpipe)
    exact splitPipe_no_pipe _ piece hpiece hin

/-- C9, witness: the line `echo 'a|b'` (pipe inside single quotes) is
dispatched as a two-stage pipeline and no stage token contains `|`. -/
theorem quoted_pipe_always_pipeline_witness :
    '|' ∈ "echo 'a|b'".toList ∧
    shellDispatch execStub "echo 'a|b'".toList =
      .pipeline (stripBg (trimR "echo 'a|b'".toList)).1
        (parsePipelineR (stripBg (trimR "echo 'a|b'".toList)).2) ∧
    parsePipelineR (stripBg (trimR "echo 'a|b'".toList)).2 =
      [["echo".toList, ['\'', 'a']], [['b', '\'']]] :=
  ⟨by decide,
   (quoted_pipe_always_pipeline execStub "echo 'a|b'".toList (by decide)).1,
   by decide⟩

/-- A found last index is within bounds. -/
theorem lastIdxOf_lt_length (p : Char → Bool) :
    ∀ (l : List Char) (i : Nat), lastIdxOf p l = some i → i < l.length := by
  intro l
  induction l with
  | nil => intro i h; simp [lastIdxOf] at h
  | cons a rest ih =>
    intro i h
    simp only [lastIdxOf] at h
    cases hr : lastIdxOf p rest with
    | some j =>
      rw [hr] at h
      cases h
      have := ih j hr
      simp only [List.length_cons]
      omega
    | none =>
      rw [hr] at h
      by_cases hp : p a
      · simp only [hp, if_pos] at h
        cases h
        simp
      · simp [hp] at h

/-- The token start never exceeds the cursor slice's length. -/
theorem tokenStartR_le (buf : List Char) (cursor : Nat) :
    tokenStartR buf cursor ≤ (buf.take cursor).length := by
  unfold tokenStartR
  cases h : lastIdxOf isWs (buf.take cursor) with
  | none => simp
  | some i => simpa using lastIdxOf_lt_length isWs _ i h

/-- Every string is a prefix of itself (`str::starts_with`). -/
theorem startsWith_self : ∀ l : List Char, startsWith l l = true := by
  intro l
  induction l with
  | nil => rfl
  | cons a rest ih => simp [startsWith, ih]

/-- C8, amended claim.  Completion on a non-first, separator-free token
that already names the sole current-directory entry is idempotent on the
buffer only for src/editor/core.rs, and reports "no change" in neither
handler: the src/editor/core.rs handler removes the token span and
re-inserts the identical sole match — buffer contents and cursor
unchanged — yet returns `true`, reporting a change; the src/input.rs
handler is further off, because its `list_dir_matches` prefixes every
candidate with the directory part (`.` + name in the current-directory
branch), so the sole candidate `.foo` is longer than the token and the
handler appends the spurious one-character suffix at the cursor and
returns `true`. -/
theorem completion_on_exact_sole_match (fs : CompFS) (buf : List Char)
    (cursor : Nat)
    (hc : cursor ≤ buf.length)
    (hne : tokenR buf cursor ≠ [])
    (hslash : '/' ∉ tokenR buf cursor)
    (hts : tokenStartR buf cursor ≠ 0)
    (hcore : fs.readDirCore ['.'] = [(tokenR buf cursor, false)])
    (hinput : fs.readDirInput ['.'] = [(tokenR buf cursor, false)]) :
    coreTab fs buf cursor = (buf, cursor, true) ∧
    inputTab fs buf cursor =
      (buf.take cursor ++
        ('.' :: tokenR buf cursor).drop (tokenR buf cursor).length ++
        buf.drop cursor, cursor + 1, true) := by
  have htne : (tokenR buf cursor).isEmpty = false := by
    cases h : tokenR buf cursor with
    | nil => exact absurd h hne
    | cons a l => simp
  have hts_le : tokenStartR buf cursor ≤ cursor := by
    have := tokenStartR_le buf cursor
    simp only [List.length_take] at this
    omega
  have hA : (buf.take cursor).length = cursor := by
    simp [List.length_take]; omega
  have htake : buf.take (tokenStartR buf cursor) =
      (buf.take cursor).take (tokenStartR buf cursor) := by
    rw [List.take_take]
    congr 1
    omega
  have hsplit : buf.take (tokenStartR buf cursor) ++ tokenR buf cursor =
      buf.take cursor := by
    rw [htake]
    exact List.take_append_drop _ _
  have hlen : tokenStartR buf cursor + (tokenR buf cursor).length = cursor := by
    have : (tokenR buf cursor).length =
        (buf.take cursor).length - tokenStartR buf cursor := by
      simp [tokenR, List.length_drop]
    rw [this, hA]
    have := tokenStartR_le buf cursor
    rw [hA] at this
    omega
  have hmcore : coreListDirMatches fs ['.'] (tokenR buf cursor) =
      [tokenR buf cursor] := by
    unfold coreListDirMatches
    rw [hcore]
    simp [startsWith_self, sortLex, insertLex]
  have hminput : inputListDirMatches fs ['.'] (tokenR buf cursor) =
      ['.' :: tokenR buf cursor] := by
    unfold inputListDirMatches
    rw [hinput]
    simp [startsWith_self, sortLex, insertLex, dedupConsec]
  constructor
  · simp only [coreTab, htne, Bool.false_eq_true, if_false, hslash,
      hts, if_neg, if_false, hmcore, coreTabBranch, commonPrefixCore,
      List.isEmpty_cons, List.foldl_nil, List.take_length, lt_irrefl,
      List.length_singleton, List.head?_cons, Option.getD_some, id_eq,
      replaceToken]
    simp only [if_true, Prod.mk.injEq]
    refine ⟨?_, hlen, trivial⟩
    rw [hsplit]
    exact List.take_append_drop _ _
  · simp only [inputTab, htne, Bool.false_eq_true, if_false, hslash,
      hts, if_neg, if_false, hminput, inputTabBranch, commonPrefixFold,
      List.isEmpty_cons, List.foldl_nil, List.length_cons,
      Nat.lt_succ_self, if_true, insertAtCursor, Prod.mk.injEq]
    refine ⟨trivial, ?_, trivial⟩
    have : (('.' :: tokenR buf cursor).drop (tokenR buf cursor).length).length
        = 1 := by
      rw [List.length_drop]
      simp
    omega

/-- C8, witness: the amended behavior evaluated with buffer `cat foo`,
cursor at the end, and a current directory holding the single file
`foo`: core.rs keeps `cat foo` but reports a change; input.rs turns the
buffer into `cat fooo`. -/
theorem completion_on_exact_sole_match_witness :
    coreTab fsFoo "cat foo".toList 7 = ("cat foo".toList, 7, true) ∧
    inputTab fsFoo "cat foo".toList 7 = ("cat fooo".toList, 8, true) := by
  have h := completion_on_exact_sole_match fsFoo "cat foo".toList 7
    (by decide) (by decide) (by decide) (by decide) (by decide) (by decide)
  exact ⟨h.1, by rw [h.2]; decide⟩

/-- Helper for C7: as long as the `u32` counter cannot wrap, the ids
handed out by the `add_job` calls of a call sequence are consecutive from
the state's `next_id`. -/
theorem addedIds_eq_range (ops : List JobOp) :
    ∀ (jobs : List JobR) (n : Nat), n + countAdds ops ≤ 2 ^ 32 →
      addedIds ⟨jobs, n⟩ ops = List.range' n (countAdds ops) := by
  induction ops with
  | nil => intro jobs n _; rfl
  | cons op rest ih =>
    intro jobs n hbound
    cases op with
    | add pid cmd =>
      simp only [countAdds] at hbound
      simp only [addedIds, countAdds, addJob]
      have hr := ih (jobs ++ [JobR.mk n pid cmd]) ((n + 1) % 2 ^ 32) (by omega)
      rw [hr]
      cases hk : countAdds rest with
      | zero => rfl
      | succ k =>
        rw [hk] at hbound
        rw [Nat.mod_eq_of_lt (by omega : n + 1 < 2 ^ 32)]
        rfl
    | update poll =>
      simp only [countAdds] at hbound
      simp only [addedIds, countAdds, updateJobs]
      exact ih _ n hbound
    | remove id =>
      simp only [countAdds] at hbound
      simp only [addedIds, countAdds, removeJob]
      exact ih _ n hbound

/-- Helper for C7: with the wrapping `u32` counter, a run of `add_job`
calls hands out the sequence `next_id, next_id + 1, …` reduced modulo
`2^32`. -/
theorem addedIds_replicate_add (n : Nat) :
    ∀ (jobs : List JobR) (m : Nat), m < 2 ^ 32 →
      addedIds ⟨jobs, m⟩ (List.replicate n (JobOp.add 0 [])) =
        (List.range n).map (fun k => (m + k) % 2 ^ 32) := by
  induction n with
  | zero => intro jobs m _; rfl
  | succ n ih =>
    intro jobs m hlt
    simp only [List.replicate_succ, addedIds, addJob]
    have hr := ih (jobs ++ [JobR.mk m 0 []]) ((m + 1) % 2 ^ 32)
      (Nat.mod_lt _ (by norm_num))
    rw [hr]
    rw [List.range_succ_eq_map]
    simp only [List.map_cons, List.map_map]
    congr 1
    · omega
    · apply List.map_congr_left
      intro k _
      simp only [Function.comp_apply]
      omega

/-- C7, counterexample.  The claim says ids are strictly increasing and
never reused within a session, unconditionally.  `next_id` is a `u32`:
in a release build a session with `2^32 + 1` background jobs wraps the
counter, and `add_job` hands out id 1 both on the first call and on the
call at index `2^32` (after the wrap passes through 0), so the id is
reused (a debug build instead panics on the overflowing increment). -/
theorem job_id_wrap_reuse :
    (addedIds JobManagerR.new
      (List.replicate (2 ^ 32 + 1) (JobOp.add 0 [])))[0]? = some 1 ∧
    (addedIds JobManagerR.new
      (List.replicate (2 ^ 32 + 1) (JobOp.add 0 [])))[2 ^ 32]? =
      some 1 := by
  have h := addedIds_replicate_add (2 ^ 32 + 1) [] 1 (by norm_num)
  have hnew : JobManagerR.new = (⟨[], 1⟩ : JobManagerR) := rfl
  constructor
  · rw [hnew, h, List.getElem?_map, List.getElem?_range (by norm_num)]
    norm_num
  · rw [hnew, h, List.getElem?_map, List.getElem?_range (by norm_num)]
    norm_num

/-- Membership through ordered insertion. -/
theorem mem_insertById (j : JobR) :
    ∀ (l : List JobR) (a : JobR), a ∈ insertById j l ↔ a = j ∨ a ∈ l := by
  intro l
  induction l with
  | nil => intro a; simp [insertById]
  | cons k rest ih =>
    intro a
    by_cases hle : j.id ≤ k.id
    · simp [insertById, hle, List.mem_cons]
    · simp only [insertById, hle, if_false, List.mem_cons, ih]
      tauto

/-- `list_jobs` lists exactly the jobs of the active set. -/
theorem mem_listJobs (s : JobManagerR) (a : JobR) :
    a ∈ listJobs s ↔ a ∈ s.jobs := by
  unfold listJobs
  induction s.jobs with
  | nil => simp
  | cons k rest ih => simp [List.foldr_cons, mem_insertById, ih]

/-- C7, amended claim.  From a fresh `JobManager`, the ids returned by
the successive `add_job` calls of a call sequence are exactly `1, 2, …`
in order — strictly increasing from 1 and never reused — **as long as
the session performs fewer than `2^32` `add_job` calls**: the `u32`
counter wraps past that (release; a debug build panics on the
increment).  A job
reported by `update_jobs` came from the active set and is evicted in the
same pass: it is absent from the new active set and from `list_jobs`,
and no later `update_jobs` call reports it again. -/
theorem job_lifecycle :
    (∀ ops : List JobOp, countAdds ops ≤ 2 ^ 32 - 1 →
      addedIds JobManagerR.new ops = List.range' 1 (countAdds ops)) ∧
    (∀ (s : JobManagerR) (poll : Nat → PollResult) (j : JobR),
      j ∈ (updateJobs poll s).1 →
      j ∈ s.jobs ∧ j ∉ (updateJobs poll s).2.jobs ∧
      j ∉ listJobs (updateJobs poll s).2 ∧
      ∀ poll' : Nat → PollResult,
        j ∉ (updateJobs poll' (updateJobs poll s).2).1) := by
  constructor
  · intro ops hops
    exact addedIds_eq_range ops [] 1 (by omega)
  · intro s poll j hj
    simp only [updateJobs, List.mem_filter] at hj
    obtain ⟨hmem, hex⟩ := hj
    have hnotkept : j ∉ (updateJobs poll s).2.jobs := by
      simp only [updateJobs, List.mem_filter]
      rintro ⟨-, hne⟩
      simp [hex] at hne
    refine ⟨hmem, hnotkept, ?_, ?_⟩
    · intro hlist
      exact hnotkept ((mem_listJobs _ j).1 hlist)
    · intro poll' hagain
      simp only [updateJobs, List.mem_filter] at hagain
      exact hnotkept (by simpa [updateJobs] using hagain.1)

/-- C7, witness: the invariants evaluated on a concrete session — three
interleaved calls hand out ids 1, 2, 3, and a job reported by one
`update_jobs` pass is gone from the set, from `list_jobs`, and from the
next pass's report. -/
theorem job_lifecycle_witness :
    addedIds JobManagerR.new
      [JobOp.add 10 ['x'], JobOp.add 20 ['y'],
       JobOp.update (fun _ => .running), JobOp.add 30 ['z']] =
      List.range' 1 (countAdds
        [JobOp.add 10 ['x'], JobOp.add 20 ['y'],
         JobOp.update (fun _ => .running), JobOp.add 30 ['z']]) ∧
    (⟨1, 10, ['x']⟩ : JobR) ∈
      (updateJobs (fun _ => .exited) ⟨[⟨1, 10, ['x']⟩], 2⟩).1 ∧
    (⟨1, 10, ['x']⟩ : JobR) ∈ (⟨[⟨1, 10, ['x']⟩], 2⟩ : JobManagerR).jobs ∧
    (⟨1, 10, ['x']⟩ : JobR) ∉
      (updateJobs (fun _ => .exited) ⟨[⟨1, 10, ['x']⟩], 2⟩).2.jobs ∧
    (⟨1, 10, ['x']⟩ : JobR) ∉
      listJobs (updateJobs (fun _ => .exited) ⟨[⟨1, 10, ['x']⟩], 2⟩).2 ∧
    (⟨1, 10, ['x']⟩ : JobR) ∉
      (updateJobs (fun _ => .running)
        (updateJobs (fun _ => .exited) ⟨[⟨1, 10, ['x']⟩], 2⟩).2).1 := by
  have h := job_lifecycle.2 ⟨[⟨1, 10, ['x']⟩], 2⟩ (fun _ => .exited)
    ⟨1, 10, ['x']⟩ (by decide)
  exact ⟨job_lifecycle.1 _ (by norm_num [countAdds]), by decide, h.1, h.2.1,
    h.2.2.1, h.2.2.2 (fun _ => .running)⟩

/-- Helper for C10: the first-word table sends `fg` to the
foreground command with the first argument parsed as a `u32`, defaulting
to 1. -/
theorem dispatchParts_fg (args : List (List Char)) (bg : Bool) :
    dispatchParts (['f', 'g'] :: args) bg =
      some (.fg ((args.head?.bind parseU32).getD 1)) := rfl

/-- Helper for C10: the same for `bg`. -/
theorem dispatchParts_bg (args : List (List Char)) (bg : Bool) :
    dispatchParts (['b', 'g'] :: args) bg =
      some (.bg ((args.head?.bind parseU32).getD 1)) := rfl

/-- C10.  Whenever subshell expansion succeeds and the expanded,
background-stripped line tokenizes with first word `fg` (resp. `bg`) and
a first argument that is absent or not parseable as a `u32`,
`Command::parse` succeeds and yields the foreground (resp. background)
command with job id defaulted to 1 — it neither fails nor reports an
error at parse time. -/
theorem fg_bg_default_to_one
    (exec : List Char → Except String (List Char)) (s t : List Char)
    (parts : List (List Char))
    (hexp : expandSubshells exec (trimR s) = .ok t)
    (hparts : parts =
      parseArgs (if t.getLast? = some '&' then trimR t.dropLast else t))
    (harg : parts.tail.head? = none ∨
      parseU32 (parts.tail.head?.getD []) = none) :
    (parts.head? = some "fg".toList → parseCommand exec s = some (.fg 1)) ∧
    (parts.head? = some "bg".toList → parseCommand exec s = some (.bg 1)) := by
  have hjob : ∀ (hd : List Char) (tl : List (List Char)), parts = hd :: tl →
      (tl.head?.bind parseU32).getD 1 = 1 := by
    intro hd tl htl
    rcases harg with h | h
    · rw [htl] at h
      simp only [List.tail_cons] at h
      simp [h]
    · rw [htl] at h
      simp only [List.tail_cons] at h
      cases hh : tl.head? with
      | none => simp [hh]
      | some a =>
        rw [hh] at h
        simp only [Option.getD_some] at h
        simp [hh, h]
  by_cases hids : (trimR s).isEmpty
  · -- empty input: `Command::parse` returns before tokenizing, and the
    -- premises are vacuous because `parts` is empty
    have hnil : trimR s = [] := List.isEmpty_iff.mp hids
    rw [hnil] at hexp
    have ht : t = [] := by
      have : (Except.ok [] : Except String (List Char)) = .ok t := hexp
      cases this; rfl
    subst ht
    have hp : parts = [] := by simpa [parseArgs, parseArgsWithState,
      parseArgsGo] using hparts
    constructor <;> intro hhead <;> rw [hp] at hhead <;> simp at hhead
  · constructor <;> intro hhead
    all_goals
      cases hps : parts with
      | nil => rw [hps] at hhead; simp at hhead
      | cons hd tl =>
        rw [hps] at hhead
        simp only [List.head?_cons, Option.some.injEq] at hhead
        subst hhead
        rw [hps] at hparts hjob
        unfold parseCommand
        simp only [hids, Bool.false_eq_true, if_false, hexp]
        rw [← hparts]
        simpa [dispatchParts_fg, dispatchParts_bg] using hjob _ tl rfl

/-- C10, witness: `fg abc` (unparseable argument) and `bg` (absent
argument) both parse to job id 1. -/
theorem fg_bg_default_to_one_witness :
    parseCommand execStub "fg abc".toList = some (.fg 1) ∧
    parseCommand execStub "bg".toList = some (.bg 1) :=
  ⟨(fg_bg_default_to_one execStub "fg abc".toList "fg abc".toList
      (parseArgs "fg abc".toList) rfl rfl (by decide)).1 (by decide),
   (fg_bg_default_to_one execStub "bg".toList "bg".toList
      (parseArgs "bg".toList) rfl rfl (by decide)).2 (by decide)⟩

end RShell
